import Mathlib

/-- UTF-8 byte width of a character, as Rust's char::len_utf8 computes it. -/
def utf8Width (c : Char) : Nat :=
  if c.toNat < 128 then 1 else if c.toNat < 2048 then 2
  else if c.toNat < 65536 then 3 else 4

/-- Model of the Rust byte-slice expression on a string slice: it drops one byte.
If the string is empty, byte index 1 is out of range and the program panics; if
the first character occupies more than one byte, index 1 is not a character
boundary and the program panics. `none` models the panic. -/
def sliceFrom1 (t : List Char) : Option (List Char) :=
  match t with
  | [] => none
  | c :: rest => if utf8Width c = 1 then some rest else none

theorem sliceFrom1_length {t t' : List Char} (h : sliceFrom1 t = some t') :
    t'.length < t.length := by
  cases t with
  | nil => simp [sliceFrom1] at h
  | cons c rest =>
    simp only [sliceFrom1] at h
    split at h
    · cases h; simp
    · cases h

/-- Total UTF-8 byte length of a character sequence, as Rust's str::len. -/
def byteLen (t : List Char) : Nat := (t.map utf8Width).sum

/-- Model of splitting a string slice at byte index n: Rust's text slicing
panics (`none`) when n does not fall on a character boundary or exceeds the
byte length. -/
def splitAtBytes (n : Nat) (t : List Char) : Option (List Char × List Char) :=
  if n = 0 then some ([], t)
  else
    match t with
    | [] => none
    | c :: rest =>
      let w := utf8Width c
      if n < w then none
      else
        match splitAtBytes (n - w) rest with
        | none => none
        | some p => some (c :: p.1, p.2)

inductive RE where
  | Char (c : Char)
  | Question (re : RE)
  | Plus (re : RE)
  | Dot
  | Start
  | End
  | CharClass (cs : List Char)
  | NegCharClass (cs : List Char)
  | Digit
  | Word
  | Alternation (left right : List RE)
  | Group (inner : List RE)
  | Backreference (n : Nat)
deriving Repr

mutual
def reSize : RE → Nat
  | .Char _ => 1
  | .Dot => 1
  | .Start => 1
  | .End => 1
  | .CharClass _ => 1
  | .NegCharClass _ => 1
  | .Digit => 1
  | .Word => 1
  | .Backreference _ => 1
  | .Question r => 1 + reSize r
  | .Plus r => 1 + reSize r
  | .Group g => 1 + pListSize g
  | .Alternation l r => 1 + pListSize l + pListSize r

def pListSize : List RE → Nat
  | [] => 0
  | r :: rs => reSize r + pListSize rs
end

theorem reSize_pos (r : RE) : 0 < reSize r := by
  cases r <;> simp only [reSize] <;> omega

/-- Model of Rust char::is_alphanumeric. On the ASCII range (the only range the
claims below exercise) this agrees with Rust's Unicode tables; outside ASCII
Rust consults Unicode category data that is not modelled here. -/
def is_alphanumeric (c : Char) : Bool := c.isAlphanum

/-- Translation of MatchContext::matches_char. -/
def matches_char (re : RE) (c : Char) : Bool :=
  match re with
  | .Char ch => ch == c
  | .Dot => true
  | .Digit => c.isDigit
  | .Word => is_alphanumeric c
  | .CharClass cls => cls.contains c
  | .NegCharClass cls => !cls.contains c
  | _ => false

/-- Translation of the fields of MatchContext. The HashMap of captures is
modelled as an association list where insertion conses and lookup takes the
most recent binding, which is extensionally the HashMap's insert/get. -/
structure MatchContext where
  text : List Char
  captures : List (Nat × List Char)
  group_index : Nat
deriving Repr, DecidableEq

/-- The common success/failure plumbing of match_here's arms: a successful
recursive call commits its context (Rust's assignment to self), a failed one
leaves the caller's context untouched. -/
def keep_on_fail (ctx : MatchContext) (r : Option (Bool × MatchContext)) :
    Option (Bool × MatchContext) :=
  match r with
  | none => none
  | some (true, c) => some (true, c)
  | some (false, _) => some (false, ctx)

mutual
/-- Translation of MatchContext::match_pattern. -/
def match_pattern (ctx : MatchContext) (pattern : List RE) :
    Option (Bool × MatchContext) :=
  match pattern with
  | RE.Start :: rest => match_here ctx rest
  | other => mp_loop ctx other ctx.text
termination_by (pListSize pattern, 3, 0)
decreasing_by
  all_goals simp_wf
  all_goals first
  | (apply Prod.Lex.left
     try simp only [pListSize, reSize]
     omega)
  | (apply Prod.Lex.right
     first
     | (apply Prod.Lex.left
        omega)
     | (apply Prod.Lex.right
        first
        | exact sliceFrom1_length h
        | omega))

/-- The unanchored search loop of match_pattern over successive text suffixes. -/
def mp_loop (ctx : MatchContext) (pattern : List RE) (slice : List Char) :
    Option (Bool × MatchContext) :=
  match match_here { ctx with text := slice } pattern with
  | none => none
  | some (true, c) => some (true, c)
  | some (false, _) =>
    if slice.isEmpty then some (false, ctx)
    else
      match h : sliceFrom1 slice with
      | none => none
      | some slice2 => mp_loop ctx pattern slice2
termination_by (pListSize pattern, 2, slice.length)
decreasing_by
  all_goals simp_wf
  all_goals first
  | (apply Prod.Lex.left
     try simp only [pListSize, reSize]
     omega)
  | (apply Prod.Lex.right
     first
     | (apply Prod.Lex.left
        omega)
     | (apply Prod.Lex.right
        first
        | exact sliceFrom1_length h
        | omega))

/-- Translation of MatchContext::match_here. Rust's match_here mutates its
receiver only when it succeeds and restores it on every failure path, so the
translation resumes each continuation from the caller's context and returns
that context on failure (see the failure-preservation theorem below). -/
def match_here (ctx : MatchContext) (pattern : List RE) :
    Option (Bool × MatchContext) :=
  match pattern with
  | [] => some (true, ctx)
  | re :: rest =>
    match re with
    | RE.End => some (ctx.text.isEmpty, ctx)
    | RE.Char c =>
      if ctx.text.head? = some c then
        match sliceFrom1 ctx.text with
        | none => none
        | some t2 => keep_on_fail ctx (match_here { ctx with text := t2 } rest)
      else some (false, ctx)
    | RE.Dot =>
      if ctx.text.isEmpty then some (false, ctx)
      else
        match sliceFrom1 ctx.text with
        | none => none
        | some t2 => keep_on_fail ctx (match_here { ctx with text := t2 } rest)
    | RE.Question re1 =>
      match match_here ctx rest with
      | none => none
      | some (true, c) => some (true, c)
      | some (false, _) =>
        match ctx.text.head? with
        | none => some (false, ctx)
        | some c0 =>
          if matches_char re1 c0 then
            match sliceFrom1 ctx.text with
            | none => none
            | some t2 => keep_on_fail ctx (match_here { ctx with text := t2 } rest)
          else some (false, ctx)
    | RE.Plus re1 =>
      match ctx.text.head? with
      | none => some (false, ctx)
      | some c0 =>
        if matches_char re1 c0 then
          match sliceFrom1 ctx.text with
          | none => none
          | some t2 => plus_loop re1 rest ctx { ctx with text := t2 }
        else some (false, ctx)
    | RE.CharClass cls =>
      if ctx.text.head?.any (fun c0 => cls.contains c0) then
        match sliceFrom1 ctx.text with
        | none => none
        | some t2 => keep_on_fail ctx (match_here { ctx with text := t2 } rest)
      else some (false, ctx)
    | RE.NegCharClass cls =>
      if ctx.text.head?.any (fun c0 => !cls.contains c0) then
        match sliceFrom1 ctx.text with
        | none => none
        | some t2 => keep_on_fail ctx (match_here { ctx with text := t2 } rest)
      else some (false, ctx)
    | RE.Digit =>
      if ctx.text.head?.any (fun c0 => c0.isDigit) then
        match sliceFrom1 ctx.text with
        | none => none
        | some t2 => keep_on_fail ctx (match_here { ctx with text := t2 } rest)
      else some (false, ctx)
    | RE.Word =>
      if ctx.text.head?.any (fun c0 => is_alphanumeric c0) then
        match sliceFrom1 ctx.text with
        | none => none
        | some t2 => keep_on_fail ctx (match_here { ctx with text := t2 } rest)
      else some (false, ctx)
    | RE.Backreference n =>
      match ctx.captures.lookup n with
      | none => some (false, ctx)
      | some cap =>
        if cap.isPrefixOf ctx.text then
          keep_on_fail ctx
            (match_here { ctx with text := ctx.text.drop cap.length } rest)
        else some (false, ctx)
    | RE.Group g => group_loop g rest ctx (ctx.group_index + 1) 0
    | RE.Alternation l r =>
      match match_pattern ctx l with
      | none => none
      | some (true, c) => some (true, c)
      | some (false, _) =>
        match match_pattern ctx r with
        | none => none
        | some (true, c) => some (true, c)
        | some (false, _) => some (false, ctx)
    | RE.Start => some (false, ctx)
termination_by (pListSize pattern, 1, 0)
decreasing_by
  all_goals simp_wf
  all_goals first
  | (apply Prod.Lex.left
     try simp only [pListSize, reSize]
     omega)
  | (apply Prod.Lex.right
     first
     | (apply Prod.Lex.left
        omega)
     | (apply Prod.Lex.right
        first
        | exact sliceFrom1_length h
        | omega))

/-- The candidate-prefix-length loop of match_here's Group arm; on exhaustion
it returns the caller's context, which is Rust's restore of the saved
captures and group index. -/
def group_loop (g rest : List RE) (ctx : MatchContext) (gi len : Nat) :
    Option (Bool × MatchContext) :=
  if hlen : len ≤ byteLen ctx.text then
    match splitAtBytes len ctx.text with
    | none => none
    | some (pre, post) =>
      match match_pattern { text := pre, captures := ctx.captures, group_index := gi } g with
      | none => none
      | some (false, _) => group_loop g rest ctx gi (len + 1)
      | some (true, ctxI) =>
        match match_here { text := post, captures := (gi, pre) :: ctxI.captures,
                           group_index := ctxI.group_index } rest with
        | none => none
        | some (true, c) => some (true, c)
        | some (false, _) => group_loop g rest ctx gi (len + 1)
  else some (false, ctx)
termination_by (1 + pListSize g + pListSize rest, 0, byteLen ctx.text + 1 - len)
decreasing_by
  all_goals simp_wf
  all_goals first
  | (apply Prod.Lex.left
     try simp only [pListSize, reSize]
     omega)
  | (apply Prod.Lex.right
     first
     | (apply Prod.Lex.left
        omega)
     | (apply Prod.Lex.right
        first
        | exact sliceFrom1_length h
        | omega))

/-- The backtracking loop of match_here's Plus arm: try the remainder, then
consume one more matching character, shortest run first. -/
def plus_loop (re1 : RE) (rest : List RE) (orig local_ctx : MatchContext) :
    Option (Bool × MatchContext) :=
  match match_here local_ctx rest with
  | none => none
  | some (true, c) => some (true, c)
  | some (false, _) =>
    match local_ctx.text.head? with
    | none => some (false, orig)
    | some c0 =>
      if matches_char re1 c0 then
        match h : sliceFrom1 local_ctx.text with
        | none => none
        | some t2 => plus_loop re1 rest orig { local_ctx with text := t2 }
      else some (false, orig)
termination_by (1 + reSize re1 + pListSize rest, 0, local_ctx.text.length)
decreasing_by
  all_goals simp_wf
  all_goals first
  | (apply Prod.Lex.left
     try simp only [pListSize, reSize]
     omega)
  | (apply Prod.Lex.right
     first
     | (apply Prod.Lex.left
        omega)
     | (apply Prod.Lex.right
        first
        | exact sliceFrom1_length h
        | omega))
end

/-- Translation of RegexEngine::match_text: match the compiled pattern against
the text from a fresh context. -/
def match_text (ast : List RE) (text : List Char) : Option Bool :=
  (match_pattern ⟨text, [], 0⟩ ast).map (fun r => r.1)

/-- Translation of the escape handling shared by parse_pattern and
parse_sequence: supported escapes produce a node, anything else panics. -/
def escape_node (e : Char) : Option RE :=
  if e = 'd' then some RE.Digit
  else if e = 'w' then some RE.Word
  else if '1' ≤ e ∧ e ≤ '9' then some (RE.Backreference (e.toNat - '0'.toNat))
  else if e = '\\' then some (RE.Char '\\')
  else none

/-- Translation of the range expansion in parse_char_class: Rust iterates the
inclusive char range start..=end, which yields every Unicode scalar value in
the interval and skips the surrogate block; an inverted range contributes
nothing. -/
def charRange (a b : Char) : List Char :=
  if a ≤ b then
    (List.range' a.toNat (b.toNat + 1 - a.toNat)).filterMap
      (fun n => if n < 55296 ∨ 57344 ≤ n then some (Char.ofNat n) else none)
  else []

/-- The character dispatch shared by the parser loops, one tag per arm of the
Rust match statements over the current character. -/
inductive ParseTok where
  | bar
  | close
  | caret
  | dollar
  | dot
  | esc
  | bracket
  | paren
  | quest
  | plusTok
  | other
deriving Repr, DecidableEq

/-- Classify the current character exactly as the arms of the Rust match
statements do. -/
def parse_tok (c : Char) : ParseTok :=
  if c = '|' then .bar
  else if c = ')' then .close
  else if c = '^' then .caret
  else if c = '$' then .dollar
  else if c = '.' then .dot
  else if c = '\\' then .esc
  else if c = '[' then .bracket
  else if c = '(' then .paren
  else if c = '?' then .quest
  else if c = '+' then .plusTok
  else .other

/-- Translation of parse_char_class. The returned remainder starts at the
closing bracket, mirroring the index the Rust function returns; the length
bound carried in the subtype corresponds to the index never moving backwards.
`none` models the panic on an unterminated class. -/
def parse_char_class (rem : List Char) :
    Option (List Char × { l : List Char // l.length ≤ rem.length }) :=
  match rem with
  | [] => none
  | c :: rest =>
    if c = ']' then some ([], ⟨c :: rest, le_refl _⟩)
    else
      match hr : rest with
      | d :: e :: rest2 =>
        if d = '-' ∧ ¬ e = ']' then
          match parse_char_class rest2 with
          | none => none
          | some (cls, ⟨rem2, h2⟩) =>
            some (charRange c e ++ cls,
              ⟨rem2, by (try subst hr); (try simp_all only [List.length_cons, List.length_tail]); (try omega)⟩)
        else
          match parse_char_class rest with
          | none => none
          | some (cls, ⟨rem2, h2⟩) =>
            some (c :: cls,
              ⟨rem2, by (try subst hr); (try simp_all only [List.length_cons, List.length_tail]); (try omega)⟩)
      | _ =>
        match parse_char_class rest with
        | none => none
        | some (cls, ⟨rem2, h2⟩) =>
          some (c :: cls,
            ⟨rem2, by (try subst hr); (try simp_all only [List.length_cons, List.length_tail]); (try omega)⟩)
termination_by rem.length
decreasing_by
  all_goals simp_wf
  all_goals (try subst hr)
  all_goals (try simp_all only [List.length_cons, List.length_tail])
  all_goals omega

mutual
/-- Translation of parse_sequence. The accumulator holds the nodes parsed so
far in reverse order, standing for the Rust result vector (its last pushed
element is the accumulator's head, which the quantifier cases pop). -/
def parse_sequence (acc : List RE) (rem : List Char) :
    Option (List RE × { l : List Char // l.length ≤ rem.length }) :=
  match rem with
  | [] => some (acc.reverse, ⟨[], by simp⟩)
  | c :: rest =>
    match parse_tok c with
    | .bar => some (acc.reverse, ⟨c :: rest, le_refl _⟩)
    | .close => some (acc.reverse, ⟨c :: rest, le_refl _⟩)
    | .caret =>
      match parse_sequence (RE.Start :: acc) rest with
      | none => none
      | some (res, ⟨l, hl⟩) =>
        some (res, ⟨l, by simp only [List.length_cons]; omega⟩)
    | .dollar =>
      match parse_sequence (RE.End :: acc) rest with
      | none => none
      | some (res, ⟨l, hl⟩) =>
        some (res, ⟨l, by simp only [List.length_cons]; omega⟩)
    | .dot =>
      match parse_sequence (RE.Dot :: acc) rest with
      | none => none
      | some (res, ⟨l, hl⟩) =>
        some (res, ⟨l, by simp only [List.length_cons]; omega⟩)
    | .esc =>
      match hr : rest with
      | [] => none
      | e :: rest2 =>
        match escape_node e with
        | none => none
        | some nd =>
          match parse_sequence (nd :: acc) rest2 with
          | none => none
          | some (res, ⟨l, hl⟩) =>
            some (res, ⟨l, by
              (try subst hr); (try simp_all only [List.length_cons, List.length_tail]); (try omega)⟩)
    | .bracket =>
      match hr : rest with
      | [] => none
      | e :: rest2 =>
        if e = '^' then
          match parse_char_class rest2 with
          | none => none
          | some (cls, ⟨rem2, h2⟩) =>
            match parse_sequence (RE.NegCharClass cls :: acc) rem2.tail with
            | none => none
            | some (res, ⟨l, hl⟩) =>
              some (res, ⟨l, by
                (try subst hr); (try simp_all only [List.length_cons, List.length_tail]); (try omega)⟩)
        else
          match parse_char_class (e :: rest2) with
          | none => none
          | some (cls, ⟨rem2, h2⟩) =>
            match parse_sequence (RE.CharClass cls :: acc) rem2.tail with
            | none => none
            | some (res, ⟨l, hl⟩) =>
              some (res, ⟨l, by
                (try subst hr); (try simp_all only [List.length_cons, List.length_tail]); (try omega)⟩)
    | .paren =>
      match parse_alternation rest with
      | none => none
      | some (g, ⟨rem2, h2⟩) =>
        match parse_sequence (g :: acc) rem2.tail with
        | none => none
        | some (res, ⟨l, hl⟩) =>
          some (res, ⟨l, by
            (try simp_all only [List.length_cons, List.length_tail]); (try omega)⟩)
    | .quest =>
      match acc with
      | [] => none
      | last :: acc2 =>
        match parse_sequence (RE.Question last :: acc2) rest with
        | none => none
        | some (res, ⟨l, hl⟩) =>
          some (res, ⟨l, by simp only [List.length_cons]; omega⟩)
    | .plusTok =>
      match acc with
      | [] => none
      | last :: acc2 =>
        match parse_sequence (RE.Plus last :: acc2) rest with
        | none => none
        | some (res, ⟨l, hl⟩) =>
          some (res, ⟨l, by simp only [List.length_cons]; omega⟩)
    | .other =>
      match parse_sequence (RE.Char c :: acc) rest with
      | none => none
      | some (res, ⟨l, hl⟩) =>
        some (res, ⟨l, by simp only [List.length_cons]; omega⟩)
termination_by (rem.length, 0)
decreasing_by
  all_goals simp_wf
  all_goals (try subst hr)
  all_goals (try simp_all only [List.length_cons, List.length_tail])
  all_goals first
  | (apply Prod.Lex.left
     omega)
  | (apply Prod.Lex.right
     omega)

/-- Translation of parse_alternation. The returned remainder starts at the
closing parenthesis, mirroring the index the Rust function returns; `none`
models the panics for unmatched parentheses and invalid alternation. -/
def parse_alternation (rem : List Char) :
    Option (RE × { l : List Char // l.length ≤ rem.length }) :=
  match parse_sequence [] rem with
  | none => none
  | some (left_side, ⟨rem1, h1⟩) =>
    match hr : rem1 with
    | [] => none
    | c1 :: rest1 =>
      if c1 = '|' then
        match parse_sequence [] rest1 with
        | none => none
        | some (right_side, ⟨rem2, h2⟩) =>
          match rem2 with
          | [] => none
          | c2 :: rest2 =>
            if c2 = ')' then
              some (RE.Group [RE.Alternation left_side right_side],
                ⟨c2 :: rest2, by
                  (try subst hr); (try simp_all only [List.length_cons, List.length_tail]); (try omega)⟩)
            else none
      else if c1 = ')' then
        some (RE.Group left_side,
          ⟨c1 :: rest1, by
            (try subst hr); (try simp_all only [List.length_cons, List.length_tail]); (try omega)⟩)
      else none
termination_by (rem.length, 1)
decreasing_by
  all_goals simp_wf
  all_goals (try subst hr)
  all_goals (try simp_all only [List.length_cons, List.length_tail])
  all_goals first
  | (apply Prod.Lex.left
     omega)
  | (apply Prod.Lex.right
     omega)
end

/-- Translation of the loop body of parse_pattern, with the result vector as a
reversed accumulator, exactly as in parse_sequence. Top level has no
alternation or group terminators: a bar or closing parenthesis is an ordinary
literal character here. -/
def parse_pattern_aux (acc : List RE) (rem : List Char) : Option (List RE) :=
  match rem with
  | [] => some acc.reverse
  | c :: rest =>
    match parse_tok c with
    | .caret => parse_pattern_aux (RE.Start :: acc) rest
    | .dollar => parse_pattern_aux (RE.End :: acc) rest
    | .dot => parse_pattern_aux (RE.Dot :: acc) rest
    | .esc =>
      match hr : rest with
      | [] => none
      | e :: rest2 =>
        match escape_node e with
        | none => none
        | some nd => parse_pattern_aux (nd :: acc) rest2
    | .bracket =>
      match hr : rest with
      | [] => none
      | e :: rest2 =>
        if e = '^' then
          match parse_char_class rest2 with
          | none => none
          | some (cls, ⟨rem2, h2⟩) => parse_pattern_aux (RE.NegCharClass cls :: acc) rem2.tail
        else
          match parse_char_class (e :: rest2) with
          | none => none
          | some (cls, ⟨rem2, h2⟩) => parse_pattern_aux (RE.CharClass cls :: acc) rem2.tail
    | .paren =>
      match parse_alternation rest with
      | none => none
      | some (g, ⟨rem2, h2⟩) =>
        let g2 :=
          match acc with
          | RE.Start :: _ =>
            match g with
            | RE.Group inner => RE.Group (RE.Start :: inner)
            | other => other
          | _ => g
        parse_pattern_aux (g2 :: acc) rem2.tail
    | .quest =>
      match acc with
      | [] => none
      | last :: acc2 => parse_pattern_aux (RE.Question last :: acc2) rest
    | .plusTok =>
      match acc with
      | [] => none
      | last :: acc2 => parse_pattern_aux (RE.Plus last :: acc2) rest
    | .bar => parse_pattern_aux (RE.Char c :: acc) rest
    | .close => parse_pattern_aux (RE.Char c :: acc) rest
    | .other => parse_pattern_aux (RE.Char c :: acc) rest
termination_by rem.length
decreasing_by
  all_goals simp_wf
  all_goals (try subst hr)
  all_goals (try simp_all only [List.length_cons, List.length_tail])
  all_goals omega

/-- Translation of parse_pattern: the single left-to-right scan over the
pattern characters; `none` models every parse panic. -/
def parse_pattern (p : List Char) : Option (List RE) := parse_pattern_aux [] p

/-- Translation of RegexEngine::new followed by RegexEngine::match_text:
compile the pattern (a compile panic is `none`) and run the matcher. -/
def regexMatch (p text : List Char) : Option Bool :=
  match parse_pattern p with
  | none => none
  | some ast => match_text ast text
/-- Modelled from the spec (section 4.2, OneOrMore): require at least one
character matching the node, then attempt the remainder with the longest run
of matching characters first, releasing one consumed character at a time.
spec_plus_shrink k tries the remainder after k consumed characters, then
k - 1, down to 1. -/
def spec_plus_shrink (rest : List RE) (ctx : MatchContext) : Nat → Option (Bool × MatchContext)
  | 0 => some (false, ctx)
  | k + 1 =>
    match match_here { ctx with text := ctx.text.drop (k + 1) } rest with
    | none => none
    | some (true, c) => some (true, c)
    | some (false, _) => spec_plus_shrink rest ctx k

/-- Modelled from the spec (section 4.2, OneOrMore): the longest initial run
of characters matching the node, shrunk one character at a time. -/
def spec_plus_longest (re1 : RE) (rest : List RE) (ctx : MatchContext) :
    Option (Bool × MatchContext) :=
  spec_plus_shrink rest ctx (ctx.text.takeWhile (fun c => matches_char re1 c)).length


section StepLemmas

theorem match_pattern_eq (ctx : MatchContext) (pattern : List RE) :
    match_pattern ctx pattern =
      match pattern with
      | RE.Start :: rest => match_here ctx rest
      | other => mp_loop ctx other ctx.text := by
  rw [match_pattern.eq_def]

theorem mp_loop_eq (ctx : MatchContext) (pattern : List RE) (slice : List Char) :
    mp_loop ctx pattern slice =
      match match_here { ctx with text := slice } pattern with
      | none => none
      | some (true, c) => some (true, c)
      | some (false, _) =>
        if slice.isEmpty then some (false, ctx)
        else
          match sliceFrom1 slice with
          | none => none
          | some slice2 => mp_loop ctx pattern slice2 := by
  rw [mp_loop.eq_def]
  rcases match_here { ctx with text := slice } pattern with _ | ⟨_ | _, c⟩ <;> try rfl
  rcases h2 : sliceFrom1 slice with _ | s2 <;> simp

theorem group_loop_eq (g rest : List RE) (ctx : MatchContext) (gi len : Nat) :
    group_loop g rest ctx gi len =
      if len ≤ byteLen ctx.text then
        match splitAtBytes len ctx.text with
        | none => none
        | some (pre, post) =>
          match match_pattern { text := pre, captures := ctx.captures, group_index := gi } g with
          | none => none
          | some (false, _) => group_loop g rest ctx gi (len + 1)
          | some (true, ctxI) =>
            match match_here { text := post, captures := (gi, pre) :: ctxI.captures,
                               group_index := ctxI.group_index } rest with
            | none => none
            | some (true, c) => some (true, c)
            | some (false, _) => group_loop g rest ctx gi (len + 1)
      else some (false, ctx) := by
  rw [group_loop.eq_def]
  split <;> rfl

theorem plus_loop_eq (re1 : RE) (rest : List RE) (orig lctx : MatchContext) :
    plus_loop re1 rest orig lctx =
      match match_here lctx rest with
      | none => none
      | some (true, c) => some (true, c)
      | some (false, _) =>
        match lctx.text.head? with
        | none => some (false, orig)
        | some c0 =>
          if matches_char re1 c0 then
            match sliceFrom1 lctx.text with
            | none => none
            | some t2 => plus_loop re1 rest orig { lctx with text := t2 }
          else some (false, orig) := by
  rw [plus_loop.eq_def]
  rcases match_here lctx rest with _ | ⟨_ | _, c⟩ <;> try rfl
  rcases lctx.text.head? with _ | c0 <;> try rfl
  by_cases hm : matches_char re1 c0 = true <;> simp [hm]
  rcases h2 : sliceFrom1 lctx.text with _ | s2 <;> simp

theorem match_here_nil (ctx : MatchContext) : match_here ctx [] = some (true, ctx) := by
  rw [match_here.eq_def]

theorem match_here_end (ctx : MatchContext) (rest : List RE) :
    match_here ctx (RE.End :: rest) = some (ctx.text.isEmpty, ctx) := by
  rw [match_here.eq_def]

theorem match_here_start (ctx : MatchContext) (rest : List RE) :
    match_here ctx (RE.Start :: rest) = some (false, ctx) := by
  rw [match_here.eq_def]

theorem match_here_char (ctx : MatchContext) (c : Char) (rest : List RE) :
    match_here ctx (RE.Char c :: rest) =
      if ctx.text.head? = some c then
        match sliceFrom1 ctx.text with
        | none => none
        | some t2 => keep_on_fail ctx (match_here { ctx with text := t2 } rest)
      else some (false, ctx) := by
  rw [match_here.eq_def]

theorem match_here_dot (ctx : MatchContext) (rest : List RE) :
    match_here ctx (RE.Dot :: rest) =
      if ctx.text.isEmpty then some (false, ctx)
      else
        match sliceFrom1 ctx.text with
        | none => none
        | some t2 => keep_on_fail ctx (match_here { ctx with text := t2 } rest) := by
  rw [match_here.eq_def]

theorem match_here_question (ctx : MatchContext) (re1 : RE) (rest : List RE) :
    match_here ctx (RE.Question re1 :: rest) =
      match match_here ctx rest with
      | none => none
      | some (true, c) => some (true, c)
      | some (false, _) =>
        match ctx.text.head? with
        | none => some (false, ctx)
        | some c0 =>
          if matches_char re1 c0 then
            match sliceFrom1 ctx.text with
            | none => none
            | some t2 => keep_on_fail ctx (match_here { ctx with text := t2 } rest)
          else some (false, ctx) := by
  rw [match_here.eq_def]

theorem match_here_plus (ctx : MatchContext) (re1 : RE) (rest : List RE) :
    match_here ctx (RE.Plus re1 :: rest) =
      match ctx.text.head? with
      | none => some (false, ctx)
      | some c0 =>
        if matches_char re1 c0 then
          match sliceFrom1 ctx.text with
          | none => none
          | some t2 => plus_loop re1 rest ctx { ctx with text := t2 }
        else some (false, ctx) := by
  rw [match_here.eq_def]

theorem match_here_cc (ctx : MatchContext) (cls : List Char) (rest : List RE) :
    match_here ctx (RE.CharClass cls :: rest) =
      if ctx.text.head?.any (fun c0 => cls.contains c0) then
        match sliceFrom1 ctx.text with
        | none => none
        | some t2 => keep_on_fail ctx (match_here { ctx with text := t2 } rest)
      else some (false, ctx) := by
  rw [match_here.eq_def]

theorem match_here_ncc (ctx : MatchContext) (cls : List Char) (rest : List RE) :
    match_here ctx (RE.NegCharClass cls :: rest) =
      if ctx.text.head?.any (fun c0 => !cls.contains c0) then
        match sliceFrom1 ctx.text with
        | none => none
        | some t2 => keep_on_fail ctx (match_here { ctx with text := t2 } rest)
      else some (false, ctx) := by
  rw [match_here.eq_def]

theorem match_here_digit (ctx : MatchContext) (rest : List RE) :
    match_here ctx (RE.Digit :: rest) =
      if ctx.text.head?.any (fun c0 => c0.isDigit) then
        match sliceFrom1 ctx.text with
        | none => none
        | some t2 => keep_on_fail ctx (match_here { ctx with text := t2 } rest)
      else some (false, ctx) := by
  rw [match_here.eq_def]

theorem match_here_word (ctx : MatchContext) (rest : List RE) :
    match_here ctx (RE.Word :: rest) =
      if ctx.text.head?.any (fun c0 => is_alphanumeric c0) then
        match sliceFrom1 ctx.text with
        | none => none
        | some t2 => keep_on_fail ctx (match_here { ctx with text := t2 } rest)
      else some (false, ctx) := by
  rw [match_here.eq_def]

theorem match_here_backref (ctx : MatchContext) (n : Nat) (rest : List RE) :
    match_here ctx (RE.Backreference n :: rest) =
      match ctx.captures.lookup n with
      | none => some (false, ctx)
      | some cap =>
        if cap.isPrefixOf ctx.text then
          keep_on_fail ctx
            (match_here { ctx with text := ctx.text.drop cap.length } rest)
        else some (false, ctx) := by
  rw [match_here.eq_def]

theorem match_here_group (ctx : MatchContext) (g rest : List RE) :
    match_here ctx (RE.Group g :: rest) = group_loop g rest ctx (ctx.group_index + 1) 0 := by
  rw [match_here.eq_def]

theorem match_here_alt (ctx : MatchContext) (l r rest : List RE) :
    match_here ctx (RE.Alternation l r :: rest) =
      match match_pattern ctx l with
      | none => none
      | some (true, c) => some (true, c)
      | some (false, _) =>
        match match_pattern ctx r with
        | none => none
        | some (true, c) => some (true, c)
        | some (false, _) => some (false, ctx) := by
  rw [match_here.eq_def]

end StepLemmas

set_option maxHeartbeats 4000000 in
set_option maxRecDepth 2000 in
theorem fail_preserves :
    (∀ ctx pattern c2, match_pattern ctx pattern = some (false, c2) → ctx = c2) ∧
    (∀ ctx pattern slice c2, mp_loop ctx pattern slice = some (false, c2) → ctx = c2) ∧
    (∀ ctx pattern c2, match_here ctx pattern = some (false, c2) → ctx = c2) ∧
    (∀ g rest ctx gi len c2, group_loop g rest ctx gi len = some (false, c2) → ctx = c2) ∧
    (∀ re1 rest orig lctx c2, plus_loop re1 rest orig lctx = some (false, c2) → orig = c2) := by
  apply match_pattern.mutual_induct <;> intros <;> rename_i c2 hEq <;>
    (first
     | rw [match_pattern_eq] at hEq
     | rw [mp_loop_eq] at hEq
     | rw [group_loop_eq] at hEq
     | rw [plus_loop_eq] at hEq
     | simp only [match_here_nil, match_here_end, match_here_start, match_here_char,
         match_here_dot, match_here_question, match_here_plus, match_here_cc,
         match_here_ncc, match_here_digit, match_here_word, match_here_backref,
         match_here_group, match_here_alt] at hEq) <;>
    (try simp only [keep_on_fail] at hEq) <;> (repeat' split at hEq) <;>
    (try simp_all only [Option.some.injEq, Prod.mk.injEq, reduceCtorEq, Bool.false_eq_true,
      Bool.true_eq_false, not_false_eq_true, not_true_eq_false, false_and, and_false,
      true_and, and_true, false_implies, true_implies]) <;>
    (try first
    | rfl
    | solve_by_elim)


/-- A text all of whose characters are single-byte in UTF-8: on such texts the
byte-based slicing of the Rust code always lands on character boundaries. -/
def asciiText (t : List Char) : Prop := ∀ c ∈ t, utf8Width c = 1

theorem asciiText_nil : asciiText [] := by intro c hc; cases hc

theorem asciiText_of_sliceFrom1 {s t : List Char} (hA : asciiText s)
    (h : sliceFrom1 s = some t) : asciiText t := by
  cases s with
  | nil => simp [sliceFrom1] at h
  | cons c rest =>
    simp only [sliceFrom1] at h
    split at h
    · cases h; intro x hx; exact hA x (List.mem_cons_of_mem c hx)
    · cases h

theorem sliceFrom1_ascii_ne_none {s : List Char} (hA : asciiText s)
    (hne : ¬ s = []) : ¬ sliceFrom1 s = none := by
  cases s with
  | nil => exact absurd rfl hne
  | cons c rest =>
    simp only [sliceFrom1]
    rw [hA c (List.mem_cons_self c rest)]
    simp

theorem asciiText_drop {s : List Char} (hA : asciiText s) (n : Nat) :
    asciiText (s.drop n) := fun c hc => hA c (List.mem_of_mem_drop hc)

theorem asciiText_take {s : List Char} (hA : asciiText s) (n : Nat) :
    asciiText (s.take n) := fun c hc => hA c (List.mem_of_mem_take hc)

theorem byteLen_ascii {s : List Char} (hA : asciiText s) : byteLen s = s.length := by
  induction s with
  | nil => rfl
  | cons c rest ih =>
    have h1 : utf8Width c = 1 := hA c (List.mem_cons_self c rest)
    have h2 : asciiText rest := fun x hx => hA x (List.mem_cons_of_mem c hx)
    have h3 := ih h2
    simp only [byteLen, List.map_cons, List.sum_cons, List.length_cons, h1] at h3 ⊢
    omega

theorem splitAtBytes_ascii {s : List Char} (hA : asciiText s) :
    ∀ n, n ≤ s.length → splitAtBytes n s = some (s.take n, s.drop n) := by
  induction s with
  | nil =>
    intro n hn
    have : n = 0 := Nat.le_zero.mp hn
    subst this
    rfl
  | cons c rest ih =>
    intro n hn
    match n with
    | 0 => rfl
    | m + 1 =>
      have h1 : utf8Width c = 1 := hA c (List.mem_cons_self c rest)
      have h2 : asciiText rest := fun x hx => hA x (List.mem_cons_of_mem c hx)
      have h3 : m ≤ rest.length := by
        simp only [List.length_cons] at hn
        omega
      rw [splitAtBytes]
      rw [if_neg (by omega)]
      simp only [h1]
      rw [if_neg (by omega)]
      have h4 : m + 1 - 1 = m := by omega
      rw [h4, ih h2 m h3]
      simp

theorem splitAtBytes_ascii_ne_none {s : List Char} (hA : asciiText s) {n : Nat}
    (hn : n ≤ byteLen s) : ¬ splitAtBytes n s = none := by
  rw [splitAtBytes_ascii hA n (by rw [byteLen_ascii hA] at hn; exact hn)]
  simp

theorem asciiText_of_splitAtBytes_fst {s pre post : List Char} (hA : asciiText s)
    {n : Nat} (h : splitAtBytes n s = some (pre, post)) (hn : n ≤ byteLen s) :
    asciiText pre := by
  rw [splitAtBytes_ascii hA n (by rw [byteLen_ascii hA] at hn; exact hn)] at h
  cases h
  exact asciiText_take hA n

theorem asciiText_of_splitAtBytes_snd {s pre post : List Char} (hA : asciiText s)
    {n : Nat} (h : splitAtBytes n s = some (pre, post)) (hn : n ≤ byteLen s) :
    asciiText post := by
  rw [splitAtBytes_ascii hA n (by rw [byteLen_ascii hA] at hn; exact hn)] at h
  cases h
  exact asciiText_drop hA n


theorem ne_nil_of_head? {l : List Char} {c : Char} (h : l.head? = some c) : ¬ l = [] := by
  cases l
  · cases h
  · simp

theorem sliceFrom1_none_absurd {s : List Char} (h : sliceFrom1 s = none)
    (hA : asciiText s) (hne : ¬ s = []) : False :=
  sliceFrom1_ascii_ne_none hA hne h

theorem sliceFrom1_none_absurd_head {s : List Char} {c : Char} (h : sliceFrom1 s = none)
    (hA : asciiText s) (hh : s.head? = some c) : False :=
  sliceFrom1_ascii_ne_none hA (ne_nil_of_head? hh) h

theorem splitAtBytes_none_absurd {s : List Char} {n : Nat} (h : splitAtBytes n s = none)
    (hA : asciiText s) (hn : n ≤ byteLen s) : False :=
  splitAtBytes_ascii_ne_none hA hn h

theorem asciiText_sliceFrom1 {s t : List Char} (h : sliceFrom1 s = some t)
    (hA : asciiText s) : asciiText t := asciiText_of_sliceFrom1 hA h

theorem asciiText_splitAtBytes_fst {s pre post : List Char} {n : Nat}
    (h : splitAtBytes n s = some (pre, post)) (hA : asciiText s) (hn : n ≤ byteLen s) :
    asciiText pre := asciiText_of_splitAtBytes_fst hA h hn

theorem asciiText_splitAtBytes_snd {s pre post : List Char} {n : Nat}
    (h : splitAtBytes n s = some (pre, post)) (hA : asciiText s) (hn : n ≤ byteLen s) :
    asciiText post := asciiText_of_splitAtBytes_snd hA h hn

theorem sliceFrom1_none_absurd_any {s : List Char} {p : Char → Bool}
    (h : sliceFrom1 s = none) (hA : asciiText s)
    (hh : Option.any p s.head? = true) : False := by
  cases s with
  | nil => cases hh
  | cons c rest => exact sliceFrom1_none_absurd h hA (by simp)

theorem sliceFrom1_none_absurd_isEmpty {s : List Char} (h : sliceFrom1 s = none)
    (hA : asciiText s) (hne : ¬ s.isEmpty = true) : False := by
  cases s with
  | nil => exact hne rfl
  | cons c rest => exact sliceFrom1_none_absurd h hA (by simp)

set_option maxHeartbeats 800000 in
set_option maxRecDepth 2000 in
theorem no_panic :
    (∀ ctx pattern, asciiText ctx.text → match_pattern ctx pattern = none → False) ∧
    (∀ ctx pattern slice, asciiText slice → mp_loop ctx pattern slice = none → False) ∧
    (∀ ctx pattern, asciiText ctx.text → match_here ctx pattern = none → False) ∧
    (∀ g rest ctx gi len, asciiText ctx.text → group_loop g rest ctx gi len = none → False) ∧
    (∀ re1 rest orig lctx, asciiText lctx.text → plus_loop re1 rest orig lctx = none → False) := by
  apply match_pattern.mutual_induct <;> intros <;> rename_i hA hEq <;>
    (first
     | rw [match_pattern_eq] at hEq
     | rw [mp_loop_eq] at hEq
     | rw [group_loop_eq] at hEq
     | rw [plus_loop_eq] at hEq
     | simp only [match_here_nil, match_here_end, match_here_start, match_here_char,
         match_here_dot, match_here_question, match_here_plus, match_here_cc,
         match_here_ncc, match_here_digit, match_here_word, match_here_backref,
         match_here_group, match_here_alt] at hEq) <;>
    (try simp only [keep_on_fail] at hEq) <;>
    (try simp only [*, reduceCtorEq, List.isEmpty_iff] at hEq) <;>
    (repeat' split at hEq) <;>
    (try simp only [*, reduceCtorEq] at hEq) <;>
    (try dsimp only at *) <;>
    (try have hA2 := asciiText_splitAtBytes_fst
                (show splitAtBytes _ _ = some (_, _) by assumption)
                (by assumption) (by assumption)) <;>
    (try have hA3 := asciiText_splitAtBytes_snd
                (show splitAtBytes _ _ = some (_, _) by assumption)
                (by assumption) (by assumption)) <;>
    solve_by_elim [sliceFrom1_none_absurd, sliceFrom1_none_absurd_head,
      sliceFrom1_none_absurd_any, sliceFrom1_none_absurd_isEmpty, splitAtBytes_none_absurd,
      asciiText_sliceFrom1, asciiText_drop, asciiText_take, asciiText_splitAtBytes_fst,
      asciiText_splitAtBytes_snd]


section ClaimTheorems

/-- C6: whenever match_here or match_pattern abandons an attempt (returns
false), the context it leaves behind has the capture store, group counter and
text of the snapshot taken before the attempt, and after a failed left
alternation arm the right arm is evaluated against exactly the original
context, so captures of a failed branch are never visible to a sibling
branch or after backtracking. -/
theorem c6_capture_isolation :
    (∀ (ctx : MatchContext) (pattern : List RE) (ctx2 : MatchContext),
       match_here ctx pattern = some (false, ctx2) →
         ctx2.captures = ctx.captures ∧ ctx2.group_index = ctx.group_index ∧
         ctx2.text = ctx.text) ∧
    (∀ (ctx : MatchContext) (pattern : List RE) (ctx2 : MatchContext),
       match_pattern ctx pattern = some (false, ctx2) →
         ctx2.captures = ctx.captures ∧ ctx2.group_index = ctx.group_index ∧
         ctx2.text = ctx.text) ∧
    (∀ (ctx : MatchContext) (l r rest : List RE) (ctx1 : MatchContext),
       match_pattern ctx l = some (false, ctx1) →
         match_here ctx (RE.Alternation l r :: rest) =
           (match match_pattern ctx r with
            | none => none
            | some (true, c) => some (true, c)
            | some (false, _) => some (false, ctx))) := by
  refine ⟨?_, ?_, ?_⟩
  · intro ctx pattern ctx2 h
    have := fail_preserves.2.2.1 ctx pattern ctx2 h
    subst this
    exact ⟨rfl, rfl, rfl⟩
  · intro ctx pattern ctx2 h
    have := fail_preserves.1 ctx pattern ctx2 h
    subst this
    exact ⟨rfl, rfl, rfl⟩
  · intro ctx l r rest ctx1 h
    rw [match_here_alt, h]

/-- Witness for C6 at a concrete failing match. -/
theorem c6_capture_isolation_witness :
    match_here ⟨['a', 'b'], [(1, ['z'])], 3⟩ [RE.Char 'x'] =
      some (false, ⟨['a', 'b'], [(1, ['z'])], 3⟩) ∧
    (⟨['a', 'b'], [(1, ['z'])], 3⟩ : MatchContext).captures = [(1, ['z'])] := by
  have h : match_here (⟨['a', 'b'], [(1, ['z'])], 3⟩ : MatchContext) [RE.Char 'x'] =
      some (false, ⟨['a', 'b'], [(1, ['z'])], 3⟩) := by
    simp [match_here_char]
  refine ⟨h, ?_⟩
  have h2 := (c6_capture_isolation.1 _ _ _ h).1
  simpa using h2

/-- C7: a backreference with no recorded capture fails; with a recorded
capture, the node succeeds exactly when the remaining text literally starts
with the captured string and the rest of the pattern matches after skipping
it. -/
theorem c7_backreference (ctx : MatchContext) (n : Nat) (rest : List RE) :
    (ctx.captures.lookup n = none →
       match_here ctx (RE.Backreference n :: rest) = some (false, ctx)) ∧
    (∀ cap, ctx.captures.lookup n = some cap →
       ((∃ c, match_here ctx (RE.Backreference n :: rest) = some (true, c)) ↔
         (cap.isPrefixOf ctx.text = true ∧
          ∃ c, match_here { ctx with text := ctx.text.drop cap.length } rest =
            some (true, c)))) := by
  constructor
  · intro h
    rw [match_here_backref, h]
  · intro cap hcap
    rw [match_here_backref, hcap]
    dsimp only
    by_cases hp : cap.isPrefixOf ctx.text = true
    · rw [if_pos hp]
      rcases h : match_here { ctx with text := ctx.text.drop cap.length } rest with
        _ | ⟨b, c⟩
      · simp [keep_on_fail, hp]
      · cases b <;> simp [keep_on_fail, hp]
    · rw [if_neg hp]
      simp [hp]

/-- Witness for C7 at a concrete capture store and text. -/
theorem c7_backreference_witness :
    ∃ c, match_here ⟨['a', 'b'], [(1, ['a'])], 1⟩ [RE.Backreference 1] =
      some (true, c) := by
  refine ((c7_backreference ⟨['a', 'b'], [(1, ['a'])], 1⟩ 1 []).2 ['a'] (by rfl)).mpr ?_
  constructor
  · decide
  · exact ⟨_, match_here_nil _⟩

/-- C8 (amended): an empty node sequence is satisfied, and an EndAnchor node
decides the match as "remaining text is empty" immediately, ignoring every
node that follows it in the sequence. -/
theorem c8_end_anchor_ignores_rest (ctx : MatchContext) (rest : List RE) :
    match_here ctx (RE.End :: rest) = some (ctx.text.isEmpty, ctx) ∧
    match_here ctx [] = some (true, ctx) :=
  ⟨match_here_end ctx rest, match_here_nil ctx⟩

/-- C8 counterexample: in the pattern a$b the literal b sits after the end
anchor, yet matching the text a succeeds: the node after EndAnchor plays no
part in the outcome, while the claim says it still would. -/
theorem c8_counterexample :
    parse_pattern ['a', '$', 'b'] = some [RE.Char 'a', RE.End, RE.Char 'b'] ∧
    regexMatch ['a', '$', 'b'] ['a'] = some true := by
  constructor
  · simp [parse_pattern, parse_pattern_aux, parse_tok]
  · simp [regexMatch, parse_pattern, parse_pattern_aux, parse_tok, match_text,
      match_pattern_eq, mp_loop_eq, match_here_char, match_here_end, match_here_nil,
      sliceFrom1, utf8Width, keep_on_fail]

/-- C10 (amended): the single-character predicate rejects every character when
the quantified node is a Group, Alternation, Start, End or Backreference; a
Plus applied to a Group therefore fails whenever that node is reached, and a
Question applied to a Group behaves exactly like the rest of the pattern.
A pattern may still match if the quantified group node is never reached, for
example after an EndAnchor. -/
theorem c10_quantified_group (g : List RE) (c : Char) (l r : List RE) (n : Nat)
    (ctx : MatchContext) (rest : List RE) :
    matches_char (RE.Group g) c = false ∧
    matches_char (RE.Alternation l r) c = false ∧
    matches_char RE.Start c = false ∧
    matches_char RE.End c = false ∧
    matches_char (RE.Backreference n) c = false ∧
    match_here ctx (RE.Plus (RE.Group g) :: rest) = some (false, ctx) ∧
    match_here ctx (RE.Question (RE.Group g) :: rest) = match_here ctx rest := by
  refine ⟨rfl, rfl, rfl, rfl, rfl, ?_, ?_⟩
  · rw [match_here_plus]
    rcases ctx.text.head? with _ | c0
    · rfl
    · simp [matches_char]
  · rw [match_here_question]
    rcases h : match_here ctx rest with _ | ⟨b, c2⟩
    · rfl
    · cases b
      · have := fail_preserves.2.2.1 ctx rest c2 h
        subst this
        rcases ctx.text.head? with _ | c0 <;> simp [matches_char]
      · rfl

/-- C10 counterexample: the pattern a$(b)+ contains Plus applied to a Group,
yet it matches the text a, because the EndAnchor short-circuits before the
quantified group is ever reached; the claim that such a pattern never
matches is false. -/
theorem c10_counterexample :
    parse_pattern ['a', '$', '(', 'b', ')', '+'] =
      some [RE.Char 'a', RE.End, RE.Plus (RE.Group [RE.Char 'b'])] ∧
    regexMatch ['a', '$', '(', 'b', ')', '+'] ['a'] = some true := by
  constructor
  · simp [parse_pattern, parse_pattern_aux, parse_tok, parse_alternation,
      parse_sequence, escape_node]
  · simp [regexMatch, parse_pattern, parse_pattern_aux, parse_tok, parse_alternation,
      parse_sequence, match_text, match_pattern_eq, mp_loop_eq, match_here_char,
      match_here_end, match_here_nil, sliceFrom1, utf8Width, keep_on_fail]

/-- C1 (code bug): matching a single literal node against a one-character
text whose character is two bytes wide in UTF-8 panics: the unanchored loop
advances with a byte slice [1..] that falls inside the character, which Rust
aborts on. In the embedding the panic is the none result of match_text. -/
theorem c1_multibyte_panic :
    utf8Width 'é' = 2 ∧ match_text [RE.Char 'z'] ['é'] = none := by
  constructor
  · decide
  · simp [match_text, match_pattern_eq, mp_loop_eq, match_here_char, sliceFrom1,
      utf8Width, keep_on_fail]

/-- Parsing a two-character escape pattern reduces to the escape table. -/
theorem parse_escape_only (e : Char) :
    parse_pattern ['\\', e] = (escape_node e).map (fun nd => [nd]) := by
  rcases h : escape_node e with _ | nd <;>
    simp [parse_pattern, parse_pattern_aux, parse_tok, h]

/-- The escape table accepts exactly d, w, the backreference digits and the
backslash. -/
theorem escape_node_cases (e : Char) :
    (escape_node e).isSome = true ↔
      (e = 'd' ∨ e = 'w' ∨ ('1' ≤ e ∧ e ≤ '9') ∨ e = '\\') := by
  unfold escape_node
  split_ifs <;> simp_all

/-- C2 (amended): an escape parses exactly when it is d, w, a digit 1-9 or a
backslash, and every malformed pattern (unsupported escape, trailing
backslash, unterminated class, dangling quantifier, unmatched parenthesis)
aborts parsing with a panic, modeled as the none result; a malformed pattern
is never reported as a false match, since regexMatch propagates the none. -/
theorem c2_malformed_pattern_outcomes :
    (∀ e : Char, (parse_pattern ['\\', e]).isSome = true ↔
        (e = 'd' ∨ e = 'w' ∨ ('1' ≤ e ∧ e ≤ '9') ∨ e = '\\')) ∧
    parse_pattern ['\\'] = none ∧
    parse_pattern ['['] = none ∧
    parse_pattern ['?'] = none ∧
    parse_pattern ['+'] = none ∧
    parse_pattern ['('] = none ∧
    regexMatch ['\\', 'q'] ['x'] = none := by
  refine ⟨?_, ?_, ?_, ?_, ?_, ?_, ?_⟩
  · intro e
    rw [parse_escape_only]
    rcases h : escape_node e with _ | nd <;> simp [h, ← escape_node_cases]
  · simp [parse_pattern, parse_pattern_aux, parse_tok]
  · simp [parse_pattern, parse_pattern_aux, parse_tok]
  · simp [parse_pattern, parse_pattern_aux, parse_tok]
  · simp [parse_pattern, parse_pattern_aux, parse_tok]
  · simp [parse_pattern, parse_pattern_aux, parse_tok, parse_alternation, parse_sequence]
  · simp [regexMatch, parse_pattern, parse_pattern_aux, parse_tok, escape_node]

/-- Witness for C2 at the concrete escape d. -/
theorem c2_malformed_pattern_outcomes_witness :
    (parse_pattern ['\\', 'd']).isSome = true :=
  (c2_malformed_pattern_outcomes.1 'd').mpr (Or.inl rfl)

/-- C2 counterexample: the unsupported escape \q makes parse_pattern abort
with a panic (the none result); the program has no parse-error type at all,
so no malformed pattern is ever reported as a typed error value. -/
theorem c2_counterexample : parse_pattern ['\\', 'q'] = none := by
  simp [parse_pattern, parse_pattern_aux, parse_tok, escape_node]

/-- C3 counterexample: in ((a)|(b)) the group (b) opens at the third opening
parenthesis, so under compile-time numbering its capture would be slot 3;
matching the text b succeeds through that group, yet slot 3 is empty and the
capture lands in slot 2, because numbers are assigned by a runtime counter
in order of attempt, not at parse time. -/
theorem c3_counterexample :
    parse_pattern ['(', '(', 'a', ')', '|', '(', 'b', ')', ')'] =
      some [RE.Group [RE.Alternation [RE.Group [RE.Char 'a']] [RE.Group [RE.Char 'b']]]] ∧
    (match_pattern ⟨['b'], [], 0⟩
        [RE.Group [RE.Alternation [RE.Group [RE.Char 'a']] [RE.Group [RE.Char 'b']]]]).map
      (fun r => (r.1, r.2.captures.lookup 2, r.2.captures.lookup 3)) =
      some (true, some ['b'], none) := by
  constructor
  · simp [parse_pattern, parse_pattern_aux, parse_tok, parse_alternation, parse_sequence]
  · simp [match_pattern_eq, mp_loop_eq, group_loop_eq, match_here_group, match_here_alt,
      match_here_char, match_here_nil, sliceFrom1, utf8Width, keep_on_fail, splitAtBytes,
      byteLen, List.lookup]

/-- C3 (amended): group numbers come from a runtime counter: a Group node is
matched with number one more than the current context's counter, whichever
branch reaches it, so in ((a)|(b)) the matched inner group is always number
2: a backreference \2 repeats whichever branch matched, on both texts, and
\3 never has a capture, so it fails on both. -/
theorem c3_runtime_numbering :
    (∀ (ctx : MatchContext) (g rest : List RE),
       match_here ctx (RE.Group g :: rest) = group_loop g rest ctx (ctx.group_index + 1) 0) ∧
    regexMatch ['(', '(', 'a', ')', '|', '(', 'b', ')', ')', '\\', '2'] ['a', 'a'] =
      some true ∧
    regexMatch ['(', '(', 'a', ')', '|', '(', 'b', ')', ')', '\\', '2'] ['b', 'b'] =
      some true ∧
    regexMatch ['(', '(', 'a', ')', '|', '(', 'b', ')', ')', '\\', '3'] ['b', 'b'] =
      some false := by
  refine ⟨match_here_group, ?_, ?_, ?_⟩ <;>
    simp [regexMatch, parse_pattern, parse_pattern_aux, parse_tok, parse_alternation,
      parse_sequence, escape_node, match_text, match_pattern_eq, mp_loop_eq, group_loop_eq,
      match_here_group, match_here_alt, match_here_char, match_here_nil, match_here_backref,
      sliceFrom1, utf8Width, keep_on_fail, splitAtBytes, byteLen, List.lookup]

/-- C4 counterexample: matching (b)$ against ab records the whole text ab as
the capture of group 1 and succeeds, although the inner pattern b does not
match the prefix ab from its start: the inner match is an unanchored search
inside the candidate prefix, not a full start-to-end match of it. -/
theorem c4_counterexample :
    parse_pattern ['(', 'b', ')', '$'] = some [RE.Group [RE.Char 'b'], RE.End] ∧
    (match_pattern ⟨['a', 'b'], [], 0⟩ [RE.Group [RE.Char 'b'], RE.End]).map
      (fun r => (r.1, r.2.captures.lookup 1)) = some (true, some ['a', 'b']) ∧
    match_here ⟨['a', 'b'], [], 0⟩ [RE.Char 'b'] = some (false, ⟨['a', 'b'], [], 0⟩) := by
  refine ⟨?_, ?_, ?_⟩
  · simp [parse_pattern, parse_pattern_aux, parse_tok, parse_alternation, parse_sequence]
  · simp [match_pattern_eq, mp_loop_eq, group_loop_eq, match_here_group, match_here_end,
      match_here_char, match_here_nil, sliceFrom1, utf8Width, keep_on_fail, splitAtBytes,
      byteLen, List.lookup]
  · simp [match_here_char]

/-- C5 counterexample: matching a+ alone against aaa, the code succeeds after
consuming a single character, leaving aa unconsumed (shortest run first),
while the spec's longest-first strategy consumes all three characters; the
two strategies return observably different contexts. -/
theorem c5_counterexample :
    match_here ⟨['a', 'a', 'a'], [], 0⟩ [RE.Plus (RE.Char 'a')] =
      some (true, ⟨['a', 'a'], [], 0⟩) ∧
    spec_plus_longest (RE.Char 'a') [] ⟨['a', 'a', 'a'], [], 0⟩ =
      some (true, ⟨[], [], 0⟩) := by
  constructor
  · simp [match_here_plus, plus_loop_eq, match_here_nil, sliceFrom1, utf8Width,
      keep_on_fail, matches_char]
  · simp [spec_plus_longest, spec_plus_shrink, match_here_nil, matches_char]

/-- Dropping one character of an ASCII text never panics. -/
theorem sliceFrom1_ascii_cons {c0 : Char} {t : List Char} (hw : utf8Width c0 = 1) :
    sliceFrom1 (c0 :: t) = some t := by
  simp [sliceFrom1, hw]

/-- Success characterization of the Plus backtracking loop on ASCII text: the
loop succeeds exactly when the remainder matches after consuming some further
run of characters matching the node. -/
theorem plus_loop_success_iff (re1 : RE) (rest : List RE) (orig : MatchContext)
    (t : List Char) (caps : List (Nat × List Char)) (gi : Nat) (hA : asciiText t) :
    (∃ c, plus_loop re1 rest orig ⟨t, caps, gi⟩ = some (true, c)) ↔
      (∃ j, j ≤ t.length ∧ (t.take j).all (fun c0 => matches_char re1 c0) = true ∧
        ∃ c2, match_here ⟨t.drop j, caps, gi⟩ rest = some (true, c2)) := by
  induction t with
  | nil =>
    rw [plus_loop_eq]
    rcases hmh : match_here ⟨[], caps, gi⟩ rest with _ | ⟨b, c⟩
    · exact absurd hmh (fun h => no_panic.2.2.1 _ _ asciiText_nil h)
    · dsimp only
      cases b
      · constructor
        · rintro ⟨c1, h1⟩
          exact absurd h1 (by simp)
        · rintro ⟨j, hj, _, c2, hc2⟩
          obtain rfl : j = 0 := by simpa using hj
          simp only [List.drop_zero] at hc2
          rw [hmh] at hc2
          exact absurd hc2 (by simp)
      · constructor
        · intro _
          exact ⟨0, Nat.le_refl 0, rfl, c, hmh⟩
        · intro _
          exact ⟨c, rfl⟩
  | cons c0 t' ih =>
    have hw : utf8Width c0 = 1 := hA c0 (List.mem_cons_self c0 t')
    have hA' : asciiText t' := fun ch hch => hA ch (List.mem_cons_of_mem c0 hch)
    rw [plus_loop_eq]
    rcases hmh : match_here ⟨c0 :: t', caps, gi⟩ rest with _ | ⟨b, c⟩
    · exact absurd hmh (fun h => no_panic.2.2.1 _ _ (by exact hA) h)
    · dsimp only
      cases b
      · dsimp only [List.head?]
        by_cases hm : matches_char re1 c0 = true
        · rw [if_pos hm, sliceFrom1_ascii_cons hw]
          dsimp only
          rw [ih hA']
          constructor
          · rintro ⟨j, hj, hall, c2, hc2⟩
            refine ⟨j + 1, by simp only [List.length_cons]; omega, ?_, c2, ?_⟩
            · simp [List.take_succ_cons, List.all_cons, hm, hall]
            · simpa [List.drop_succ_cons] using hc2
          · rintro ⟨k, hk2, hall, c2, hc2⟩
            rcases k with _ | j
            · simp only [List.drop_zero] at hc2
              rw [hmh] at hc2
              exact absurd hc2 (by simp)
            · refine ⟨j, by simp only [List.length_cons] at hk2; omega, ?_, c2, ?_⟩
              · have h2 := hall
                simp only [List.take_succ_cons, List.all_cons, Bool.and_eq_true] at h2
                exact h2.2
              · simpa [List.drop_succ_cons] using hc2
        · rw [if_neg hm]
          constructor
          · rintro ⟨c1, h1⟩
            exact absurd h1 (by simp)
          · rintro ⟨k, hk2, hall, c2, hc2⟩
            rcases k with _ | j
            · simp only [List.drop_zero] at hc2
              rw [hmh] at hc2
              exact absurd hc2 (by simp)
            · simp only [List.take_succ_cons, List.all_cons, Bool.and_eq_true] at hall
              exact absurd hall.1 hm
      · constructor
        · intro _
          exact ⟨0, Nat.zero_le _, rfl, c, hmh⟩
        · intro _
          exact ⟨c, rfl⟩

/-- Success characterization of the Group candidate-length loop on ASCII text:
from starting length len0 the loop succeeds exactly when some candidate length
at least len0 admits an inner match on the prefix and a remainder match after
it, with the prefix recorded as the capture of the runtime group number. -/
theorem group_loop_success_iff (g rest : List RE) (t : List Char)
    (caps : List (Nat × List Char)) (gi0 gi : Nat) (hA : asciiText t) :
    ∀ n len0, n = t.length + 1 - len0 →
    ((∃ c, group_loop g rest ⟨t, caps, gi0⟩ gi len0 = some (true, c)) ↔
      ∃ len, len0 ≤ len ∧ len ≤ t.length ∧
        ∃ cI, match_pattern ⟨t.take len, caps, gi⟩ g = some (true, cI) ∧
          ∃ c2, match_here ⟨t.drop len, (gi, t.take len) :: cI.captures,
              cI.group_index⟩ rest = some (true, c2)) := by
  intro n
  induction n with
  | zero =>
    intro len0 heq
    rw [group_loop_eq]
    have hbl : byteLen (⟨t, caps, gi0⟩ : MatchContext).text = t.length := byteLen_ascii hA
    rw [hbl, if_neg (by omega)]
    constructor
    · rintro ⟨c1, h1⟩
      exact absurd h1 (by simp)
    · rintro ⟨len, hlo, hhi, _⟩
      omega
  | succ n ih =>
    intro len0 heq
    rw [group_loop_eq]
    have hbl : byteLen (⟨t, caps, gi0⟩ : MatchContext).text = t.length := byteLen_ascii hA
    rw [hbl, if_pos (by omega)]
    have hsplit : splitAtBytes len0 (⟨t, caps, gi0⟩ : MatchContext).text =
        some (t.take len0, t.drop len0) := splitAtBytes_ascii hA len0 (by omega)
    rw [hsplit]
    dsimp only
    rcases hmp : match_pattern ⟨t.take len0, caps, gi⟩ g with _ | ⟨bI, ctxI⟩
    · exact absurd hmp (fun h => no_panic.1 _ _ (by exact asciiText_take hA len0) h)
    · cases bI
      · dsimp only
        rw [ih (len0 + 1) (by omega)]
        constructor
        · rintro ⟨len, hlo, hrest⟩
          exact ⟨len, by omega, hrest⟩
        · rintro ⟨len, hlo, hhi, cI, hcI, hrest⟩
          by_cases hl : len = len0
          · subst hl
            rw [hmp] at hcI
            exact absurd hcI (by simp)
          · exact ⟨len, by omega, hhi, cI, hcI, hrest⟩
      · dsimp only
        rcases hmh : match_here ⟨t.drop len0, (gi, t.take len0) :: ctxI.captures,
            ctxI.group_index⟩ rest with _ | ⟨b2, c2⟩
        · exact absurd hmh (fun h => no_panic.2.2.1 _ _ (by exact asciiText_drop hA len0) h)
        · cases b2
          · dsimp only
            rw [ih (len0 + 1) (by omega)]
            constructor
            · rintro ⟨len, hlo, hrest⟩
              exact ⟨len, by omega, hrest⟩
            · rintro ⟨len, hlo, hhi, cI, hcI, hrest⟩
              by_cases hl : len = len0
              · subst hl
                rw [hmp] at hcI
                have hIeq : ctxI = cI := by
                  simpa using hcI
                subst hIeq
                obtain ⟨c2', hc2'⟩ := hrest
                rw [hmh] at hc2'
                exact absurd hc2' (by simp)
              · exact ⟨len, by omega, hhi, cI, hcI, hrest⟩
          · constructor
            · intro _
              exact ⟨len0, Nat.le_refl len0, by omega, ctxI, hmp, c2, hmh⟩
            · intro _
              exact ⟨c2, rfl⟩

/-- C5 (amended): on ASCII text, a OneOrMore node requires at least one
character matching the node's single-character predicate; the remainder of the
pattern is then attempted after each run length, extending the run one
character at a time starting from the shortest, so the node sequence succeeds
exactly when for some k between 1 and the text length the first k characters
all match the node and the rest of the pattern matches after them. -/
theorem c5_plus_characterization (re1 : RE) (rest : List RE) (ctx : MatchContext)
    (hA : asciiText ctx.text) :
    (∃ c, match_here ctx (RE.Plus re1 :: rest) = some (true, c)) ↔
      ∃ k, 1 ≤ k ∧ k ≤ ctx.text.length ∧
        (ctx.text.take k).all (fun c0 => matches_char re1 c0) = true ∧
        ∃ c2, match_here ⟨ctx.text.drop k, ctx.captures, ctx.group_index⟩ rest =
          some (true, c2) := by
  obtain ⟨t, caps, gi⟩ := ctx
  dsimp only at hA ⊢
  rw [match_here_plus]
  rcases t with _ | ⟨c0, t'⟩
  · constructor
    · rintro ⟨c1, h1⟩
      exact absurd h1 (by simp)
    · rintro ⟨k, hk1, hk2, _⟩
      simp only [List.length_nil] at hk2
      omega
  · have hw : utf8Width c0 = 1 := hA c0 (List.mem_cons_self c0 t')
    have hA' : asciiText t' := fun ch hch => hA ch (List.mem_cons_of_mem c0 hch)
    dsimp only [List.head?]
    by_cases hm : matches_char re1 c0 = true
    · rw [if_pos hm, sliceFrom1_ascii_cons hw]
      dsimp only
      rw [plus_loop_success_iff re1 rest _ t' caps gi hA']
      constructor
      · rintro ⟨j, hj, hall, c2, hc2⟩
        refine ⟨j + 1, by omega, by simp only [List.length_cons]; omega, ?_, c2, ?_⟩
        · simp [List.take_succ_cons, List.all_cons, hm, hall]
        · simpa [List.drop_succ_cons] using hc2
      · rintro ⟨k, hk1, hk2, hall, c2, hc2⟩
        rcases k with _ | j
        · omega
        · refine ⟨j, by simp only [List.length_cons] at hk2; omega, ?_, c2, ?_⟩
          · simp only [List.take_succ_cons, List.all_cons, Bool.and_eq_true] at hall
            exact hall.2
          · simpa [List.drop_succ_cons] using hc2
    · rw [if_neg hm]
      constructor
      · rintro ⟨c1, h1⟩
        exact absurd h1 (by simp)
      · rintro ⟨k, hk1, hk2, hall, c2, hc2⟩
        rcases k with _ | j
        · omega
        · simp only [List.take_succ_cons, List.all_cons, Bool.and_eq_true] at hall
          exact absurd hall.1 hm

/-- Witness for C5 at the pattern a+ against the text a. -/
theorem c5_plus_characterization_witness :
    ∃ c, match_here ⟨['a'], [], 0⟩ [RE.Plus (RE.Char 'a')] = some (true, c) := by
  refine (c5_plus_characterization (RE.Char 'a') [] ⟨['a'], [], 0⟩
    (by intro ch hch; simp only [List.mem_singleton] at hch; subst hch; decide)).mpr ?_
  exact ⟨1, Nat.le_refl 1, by decide, by decide, _, match_here_nil _⟩

/-- C4 (amended): on ASCII text, a Group node is matched by trying candidate
prefix lengths in increasing order from 0; the node sequence succeeds exactly
when for some candidate length the group's inner pattern matches somewhere
inside that prefix (an unanchored sub-search, not a full start-to-end match of
the prefix) and the remainder matches the following text, with the full
candidate prefix recorded as the capture of the runtime group number. -/
theorem c4_group_characterization (g rest : List RE) (ctx : MatchContext)
    (hA : asciiText ctx.text) :
    (∃ c, match_here ctx (RE.Group g :: rest) = some (true, c)) ↔
      ∃ len, len ≤ ctx.text.length ∧
        ∃ cI, match_pattern ⟨ctx.text.take len, ctx.captures, ctx.group_index + 1⟩ g =
            some (true, cI) ∧
          ∃ c2, match_here ⟨ctx.text.drop len,
              (ctx.group_index + 1, ctx.text.take len) :: cI.captures,
              cI.group_index⟩ rest = some (true, c2) := by
  obtain ⟨t, caps, gi0⟩ := ctx
  dsimp only at hA ⊢
  rw [match_here_group]
  dsimp only
  rw [group_loop_success_iff g rest t caps gi0 (gi0 + 1) hA (t.length + 1) 0 (by omega)]
  constructor
  · rintro ⟨len, _, hhi, hrest⟩
    exact ⟨len, hhi, hrest⟩
  · rintro ⟨len, hhi, hrest⟩
    exact ⟨len, Nat.zero_le _, hhi, hrest⟩

/-- Witness for C4 at the pattern (b) against the text b. -/
theorem c4_group_characterization_witness :
    ∃ c, match_here ⟨['b'], [], 0⟩ [RE.Group [RE.Char 'b']] = some (true, c) := by
  refine (c4_group_characterization [RE.Char 'b'] [] ⟨['b'], [], 0⟩
    (by intro ch hch; simp only [List.mem_singleton] at hch; subst hch; decide)).mpr ?_
  refine ⟨1, by decide, ⟨[], [], 1⟩, ?_, _, match_here_nil _⟩
  show match_pattern ⟨['b'], [], 1⟩ [RE.Char 'b'] = some (true, ⟨[], [], 1⟩)
  simp [match_pattern_eq, mp_loop_eq, match_here_char, match_here_nil, sliceFrom1,
    utf8Width, keep_on_fail]



theorem nil_isPrefixOf_eq (t : List Char) : ([] : List Char).isPrefixOf t = true := by
  cases t <;> rfl

theorem match_here_literal (p : List Char) :
    ∀ (t : List Char) (caps : List (Nat × List Char)) (gi : Nat), asciiText t →
    match_here ⟨t, caps, gi⟩ (p.map RE.Char) =
      if p.isPrefixOf t = true then some (true, ⟨t.drop p.length, caps, gi⟩)
      else some (false, ⟨t, caps, gi⟩) := by
  induction p with
  | nil =>
    intro t caps gi hA
    rw [List.map_nil, match_here_nil, if_pos (nil_isPrefixOf_eq t)]
    simp
  | cons ch p' ih =>
    intro t caps gi hA
    rw [List.map_cons, match_here_char]
    rcases t with _ | ⟨d, t'⟩
    · rw [if_neg (by simp)]
      rw [if_neg (by simp [List.isPrefixOf])]
    · dsimp only
      have hw : utf8Width d = 1 := hA d (List.mem_cons_self d t')
      have hA' : asciiText t' := fun c2 hc2 => hA c2 (List.mem_cons_of_mem d hc2)
      by_cases hcd : d = ch
      · subst hcd
        rw [if_pos (by simp), sliceFrom1_ascii_cons hw]
        show keep_on_fail ⟨d :: t', caps, gi⟩
            (match_here ⟨t', caps, gi⟩ (p'.map RE.Char)) = _
        rw [ih t' caps gi hA']
        by_cases hp : p'.isPrefixOf t' = true
        · rw [if_pos hp, if_pos (by simp [List.isPrefixOf_cons₂, hp])]
          simp [keep_on_fail, List.drop_succ_cons]
        · rw [if_neg hp, if_neg (by simp [List.isPrefixOf_cons₂, hp])]
          simp [keep_on_fail]
      · rw [if_neg (by simp [hcd])]
        rw [if_neg (by
          simp only [List.isPrefixOf_cons₂, Bool.and_eq_true, beq_iff_eq, not_and]
          intro h _
          exact hcd h.symm)]

theorem mp_loop_literal (p : List Char) (t0 : List Char) (caps : List (Nat × List Char))
    (gi : Nat) : ∀ t, asciiText t →
    ∃ b c, mp_loop ⟨t0, caps, gi⟩ (p.map RE.Char) t = some (b, c) ∧
      (b = true ↔ p <:+: t) := by
  intro t
  induction t with
  | nil =>
    intro hA
    rw [mp_loop_eq]
    rw [match_here_literal p [] caps gi asciiText_nil]
    by_cases hp : p.isPrefixOf [] = true
    · rw [if_pos hp]
      refine ⟨true, _, rfl, ?_⟩
      simp only [true_iff]
      exact List.IsPrefix.isInfix ( List.isPrefixOf_iff_prefix.mp hp)
    · rw [if_neg hp]
      refine ⟨false, ⟨t0, caps, gi⟩, rfl, ?_⟩
      constructor
      · intro h
        exact absurd h (by simp)
      · intro hinf
        have hn : p = [] := List.infix_nil.mp hinf
        subst hn
        exact absurd (nil_isPrefixOf_eq []) hp
  | cons d t' iht =>
    intro hA
    have hw : utf8Width d = 1 := hA d (List.mem_cons_self d t')
    have hA' : asciiText t' := fun ch hch => hA ch (List.mem_cons_of_mem d hch)
    rw [mp_loop_eq]
    rw [match_here_literal p (d :: t') caps gi hA]
    by_cases hp : p.isPrefixOf (d :: t') = true
    · rw [if_pos hp]
      refine ⟨true, _, rfl, ?_⟩
      simp only [true_iff]
      exact List.IsPrefix.isInfix ( List.isPrefixOf_iff_prefix.mp hp)
    · rw [if_neg hp]
      obtain ⟨b, c, hc, hiff⟩ := iht hA'
      refine ⟨b, c, ?_, ?_⟩
      · simp [sliceFrom1_ascii_cons hw, hc]
      · have hnp : ¬ p <+: (d :: t') := fun hpre =>
          hp ( List.isPrefixOf_iff_prefix.mpr hpre)
        rw [hiff, List.infix_cons_iff, or_iff_right hnp]

theorem parse_pattern_aux_other_step (acc : List RE) (c : Char) (rest : List Char)
    (h : parse_tok c = ParseTok.other) :
    parse_pattern_aux acc (c :: rest) = parse_pattern_aux (RE.Char c :: acc) rest := by
  rcases acc with _ | ⟨r, rs⟩ <;> rcases rest with _ | ⟨e, rest2⟩ <;>
    simp only [parse_pattern_aux.eq_2, parse_pattern_aux.eq_3, parse_pattern_aux.eq_4,
      parse_pattern_aux.eq_5, h]

theorem parse_pattern_aux_literal (p : List Char)
    (hp : ∀ ch ∈ p, parse_tok ch = ParseTok.other) :
    ∀ acc, parse_pattern_aux acc p = some (acc.reverse ++ p.map RE.Char) := by
  induction p with
  | nil =>
    intro acc
    rw [parse_pattern_aux.eq_1]
    simp
  | cons c p' ih =>
    intro acc
    have htok := hp c (List.mem_cons_self c p')
    have hrec := ih (fun ch hch => hp ch (List.mem_cons_of_mem c hch)) (RE.Char c :: acc)
    rw [parse_pattern_aux_other_step acc c p' htok, hrec]
    simp

theorem parse_pattern_literal (p : List Char)
    (hp : ∀ ch ∈ p, parse_tok ch = ParseTok.other) :
    parse_pattern p = some (p.map RE.Char) := by
  have h := parse_pattern_aux_literal p hp []
  simpa [parse_pattern] using h

/-- C9 (amended): for a pattern of literal (non-syntax) characters and an
ASCII text, matching never panics and returns true exactly when the pattern
is a contiguous substring of the text; for non-ASCII text the unanchored scan
can panic instead (see the counterexample). -/
theorem c9_literal_substring (p t : List Char)
    (hp : ∀ ch ∈ p, parse_tok ch = ParseTok.other) (hA : asciiText t) :
    ∃ b, regexMatch p t = some b ∧ (b = true ↔ p <:+: t) := by
  obtain ⟨b, c, hc, hiff⟩ := mp_loop_literal p t [] 0 t hA
  have hparse := parse_pattern_literal p hp
  refine ⟨b, ?_, hiff⟩
  have hdisp : match_pattern ⟨t, [], 0⟩ (p.map RE.Char) =
      mp_loop ⟨t, [], 0⟩ (p.map RE.Char) t := by
    rcases p with _ | ⟨c1, p1⟩ <;> simp only [List.map_nil, List.map_cons] <;>
      rw [match_pattern_eq]
  simp [regexMatch, hparse, match_text, hdisp, hc]

/-- Witness for C9 at the pattern b against the text ab. -/
theorem c9_literal_substring_witness :
    (∃ b, regexMatch ['b'] ['a', 'b'] = some b ∧
      (b = true ↔ (['b'] : List Char) <:+: ['a', 'b'])) ∧
    (['b'] : List Char) <:+: ['a', 'b'] := by
  constructor
  · exact c9_literal_substring ['b'] ['a', 'b']
      (by intro ch hch; fin_cases hch <;> decide)
      (by intro ch hch; fin_cases hch <;> decide)
  · exact ⟨['a'], [], rfl⟩

/-- C9 counterexample: the one-letter literal pattern a is a substring of the
text éa, but matching panics (the none result) instead of returning true: the
unanchored scan advances by one byte into the two-byte character é. -/
theorem c9_counterexample :
    regexMatch ['a'] ['é', 'a'] = none ∧ (['a'] : List Char) <:+: ['é', 'a'] := by
  constructor
  · simp [regexMatch, parse_pattern, parse_pattern_aux, parse_tok, match_text,
      match_pattern_eq, mp_loop_eq, match_here_char, sliceFrom1, utf8Width, keep_on_fail]
  · exact ⟨['é'], [], rfl⟩

end ClaimTheorems
